import Mathlib

/-!
Verification of the adversarial-search core in `game_agent.py`.

The game board is an external collaborator: the search code only queries
the legal-move list of the active player, applies a move to obtain a child
state, reads the agent's current location, and evaluates a heuristic.  We
therefore embed a game state reachable by the search as a finitely
branching tree: each node carries the location `get_player_location(self)`
would report, the value `self.score(game, self)` would report, and the
ordered list of `(move, child state)` pairs produced by
`get_legal_moves()` / `forecast_move`.  Quantifying over all trees
quantifies over all states, all move generators and all heuristics at
once.

Heuristic values in the source are IEEE floats including the two
infinities (`float("-inf")`, `float("inf")`); no NaN can arise because the
search only compares and never adds scores.  We model the score domain as
an arbitrary decidable linear order with distinct bottom and top elements;
`WithBot (WithTop Int)` is used for concrete evaluations.
-/

abbrev Move : Type := ℤ × ℤ

/-- Concrete score domain for evaluations: integers with `-inf` and `+inf`. -/
abbrev IScore : Type := WithBot (WithTop ℤ)

/-- Game trees (`GNode S true`) and ordered child lists (`GNode S false`),
as one `Bool`-indexed family so that all recursions are structural. -/
inductive GNode (S : Type) : Bool → Type where
  | node (loc : Move) (sc : S) (kids : GNode S false) : GNode S true
  | nil : GNode S false
  | cons (m : Move) (t : GNode S true) (rest : GNode S false) : GNode S false

section SearchModel

variable {S : Type} [LinearOrder S] [OrderBot S] [OrderTop S]

/-- `len(legal_moves) == 0` at this node. -/
def GNode.isNil : GNode S false → Bool
  | .nil => true
  | .cons _ _ _ => false

/-- `legal_moves[0]`; only used on non-empty lists. -/
def GNode.headMove : GNode S false → Move
  | .nil => (-1, -1)
  | .cons m _ _ => m

/-- The ordered list of legal moves at a node (`game.get_legal_moves()`). -/
def GNode.moves : GNode S false → List Move
  | .nil => []
  | .cons m _ rest => m :: rest.moves

/-- `game.get_player_location(self)` at the root of the tree. -/
def GNode.loc : GNode S true → Move
  | .node l _ _ => l

/-- `self.score(game, self)` at the root of the tree. -/
def GNode.sc : GNode S true → S
  | .node _ s _ => s

def GNode.kids : GNode S true → GNode S false
  | .node _ _ k => k

def GNode.legalMoves (t : GNode S true) : List Move := t.kids.moves

mutual

/-- `CustomPlayer.minimax` (game_agent.py:246-307), with the timer check
stripped (the timed variant is `minimaxT`).  `depth` is an `Int` because
the source compares `depth < 1` and callers may pass values below 1. -/
def minimax (t : GNode S true) (d : ℤ) (maxi : Bool) : S × Move :=
  match t with
  | .node loc sc kids =>
    if d < 1 ∨ kids.isNil = true then (sc, loc)
    else if maxi then mmMax kids (d - 1) (⊥, kids.headMove)
    else mmMin kids (d - 1) (⊤, kids.headMove)

/-- The `for move in legal_moves` loop of the maximizing branch of
`minimax`: state `best = (max_score, max_move)`, update on strict
improvement only. -/
def mmMax (cs : GNode S false) (d : ℤ) (best : S × Move) : S × Move :=
  match cs with
  | .nil => best
  | .cons m t rest =>
    let r := minimax t d false
    mmMax rest d (if best.1 < r.1 then (r.1, m) else best)

/-- The minimizing loop of `minimax`. -/
def mmMin (cs : GNode S false) (d : ℤ) (best : S × Move) : S × Move :=
  match cs with
  | .nil => best
  | .cons m t rest =>
    let r := minimax t d true
    mmMin rest d (if r.1 < best.1 then (r.1, m) else best)

end

mutual

/-- `CustomPlayer.alphabeta` (game_agent.py:309-383), timer check stripped. -/
def alphabeta (t : GNode S true) (d : ℤ) (a b : S) (maxi : Bool) : S × Move :=
  match t with
  | .node loc sc kids =>
    if d < 1 ∨ kids.isNil = true then (sc, loc)
    else if maxi then abMax kids (d - 1) a b (⊥, kids.headMove)
    else abMin kids (d - 1) a b (⊤, kids.headMove)

/-- Maximizing loop of `alphabeta`: after each child, update the best
pair, then `alpha = max(alpha, max_score)`, then break when
`beta <= alpha`. -/
def abMax (cs : GNode S false) (d : ℤ) (a b : S) (best : S × Move) : S × Move :=
  match cs with
  | .nil => best
  | .cons m t rest =>
    let r := alphabeta t d a b false
    let best' := if best.1 < r.1 then (r.1, m) else best
    let a' := max a best'.1
    if b ≤ a' then best' else abMax rest d a' b best'

/-- Minimizing loop of `alphabeta`: `beta = min(beta, min_score)`, break
when `beta <= alpha`. -/
def abMin (cs : GNode S false) (d : ℤ) (a b : S) (best : S × Move) : S × Move :=
  match cs with
  | .nil => best
  | .cons m t rest =>
    let r := alphabeta t d a b true
    let best' := if r.1 < best.1 then (r.1, m) else best
    let b' := min b best'.1
    if b' ≤ a then best' else abMin rest d a b' best'

end

/-- The `(move, minimax value)` pairs of the children of a node, at child
depth `d` and child parity `maxi` — what the spec calls "the recursive
evaluations of each legal move". -/
def childPairs (cs : GNode S false) (d : ℤ) (maxi : Bool) : List (Move × S) :=
  match cs with
  | .nil => []
  | .cons m t rest => (m, (minimax t d maxi).1) :: childPairs rest d maxi

end SearchModel

section TimedModel

variable {S : Type} [LinearOrder S] [OrderBot S] [OrderTop S]

/-- Outcome of a timed search call: `error j` models `raise Timeout()`
where `j` is the index of the clock query that failed; `ok (res, k)`
carries the result and the next query index. -/
abbrev TRes (S : Type) := Except ℕ ((S × Move) × ℕ)

mutual

/-- `CustomPlayer.minimax` with the entry check
`if self.time_left() < self.TIMER_THRESHOLD: raise Timeout()` modelled
explicitly: `tl` is the remaining-time query (indexed by how many queries
happened so far), `th` the configured threshold. -/
def minimaxT (tl : ℕ → ℚ) (th : ℚ) (t : GNode S true) (d : ℤ) (maxi : Bool)
    (k : ℕ) : TRes S :=
  match t with
  | .node loc sc kids =>
    if tl k < th then .error k
    else if d < 1 ∨ kids.isNil = true then .ok ((sc, loc), k + 1)
    else if maxi then mmMaxT tl th kids (d - 1) (⊥, kids.headMove) (k + 1)
    else mmMinT tl th kids (d - 1) (⊤, kids.headMove) (k + 1)

def mmMaxT (tl : ℕ → ℚ) (th : ℚ) (cs : GNode S false) (d : ℤ)
    (best : S × Move) (k : ℕ) : TRes S :=
  match cs with
  | .nil => .ok (best, k)
  | .cons m t rest =>
    match minimaxT tl th t d false k with
    | .error j => .error j
    | .ok (r, k') => mmMaxT tl th rest d (if best.1 < r.1 then (r.1, m) else best) k'

def mmMinT (tl : ℕ → ℚ) (th : ℚ) (cs : GNode S false) (d : ℤ)
    (best : S × Move) (k : ℕ) : TRes S :=
  match cs with
  | .nil => .ok (best, k)
  | .cons m t rest =>
    match minimaxT tl th t d true k with
    | .error j => .error j
    | .ok (r, k') => mmMinT tl th rest d (if r.1 < best.1 then (r.1, m) else best) k'

end

mutual

/-- `CustomPlayer.alphabeta` with the explicit timer model. -/
def alphabetaT (tl : ℕ → ℚ) (th : ℚ) (t : GNode S true) (d : ℤ) (a b : S)
    (maxi : Bool) (k : ℕ) : TRes S :=
  match t with
  | .node loc sc kids =>
    if tl k < th then .error k
    else if d < 1 ∨ kids.isNil = true then .ok ((sc, loc), k + 1)
    else if maxi then abMaxT tl th kids (d - 1) a b (⊥, kids.headMove) (k + 1)
    else abMinT tl th kids (d - 1) a b (⊤, kids.headMove) (k + 1)

def abMaxT (tl : ℕ → ℚ) (th : ℚ) (cs : GNode S false) (d : ℤ) (a b : S)
    (best : S × Move) (k : ℕ) : TRes S :=
  match cs with
  | .nil => .ok (best, k)
  | .cons m t rest =>
    match alphabetaT tl th t d a b false k with
    | .error j => .error j
    | .ok (r, k') =>
      let best' := if best.1 < r.1 then (r.1, m) else best
      let a' := max a best'.1
      if b ≤ a' then .ok (best', k') else abMaxT tl th rest d a' b best' k'

def abMinT (tl : ℕ → ℚ) (th : ℚ) (cs : GNode S false) (d : ℤ) (a b : S)
    (best : S × Move) (k : ℕ) : TRes S :=
  match cs with
  | .nil => .ok (best, k)
  | .cons m t rest =>
    match alphabetaT tl th t d a b true k with
    | .error j => .error j
    | .ok (r, k') =>
      let best' := if r.1 < best.1 then (r.1, m) else best
      let b' := min b best'.1
      if b' ≤ a then .ok (best', k') else abMinT tl th rest d a b' best' k'

end

/-- The configuration stored by `CustomPlayer.__init__`
(game_agent.py:160-167): the constructor stores its arguments without any
validation and cannot fail.  The heuristic (`score_fn`) is represented by
the score fields of the game tree. -/
structure Config where
  search_depth : ℤ
  iterative : Bool
  method : String
  threshold : ℚ

/-- `CustomPlayer.__init__`: a total function, every argument is stored. -/
def customPlayerInit (sd : ℤ) (iter : Bool) (method : String) (timeout : ℚ) :
    Config :=
  ⟨sd, iter, method, timeout⟩

/-- The `if self.method == 'minimax': ... elif self.method == 'alphabeta': ...`
dispatch inside `get_move`; `none` means neither branch ran. -/
def runMethod (cfg : Config) (tl : ℕ → ℚ) (g : GNode S true) (d : ℤ) (k : ℕ) :
    Option (TRes S) :=
  if cfg.method = "minimax" then some (minimaxT tl cfg.threshold g d true k)
  else if cfg.method = "alphabeta" then
    some (alphabetaT tl cfg.threshold g d ⊥ ⊤ true k)
  else none

/-- The `while True` iterative-deepening loop of `get_move`, carrying the
recorded `(score, move)` and the clock-query index.  The source loop can
only exit through `Timeout`; `fuel` bounds the number of modelled
iterations (each theorem quantifies over all `fuel`). -/
def iterLoop (cfg : Config) (tl : ℕ → ℚ) (g : GNode S true) :
    ℕ → ℤ → S × Move → ℕ → (S × Move) × ℕ
  | 0, _, best, k => (best, k)
  | fuel + 1, d, best, k =>
    match runMethod cfg tl g d k with
    | none => iterLoop cfg tl g fuel (d + 1) best k
    | some (.error j) => (best, j + 1)
    | some (.ok (r, k')) => iterLoop cfg tl g fuel (d + 1) r k'

/-- The `(score, move)` results of the fully completed depth iterations,
in order, stopping at the first iteration that raises `Timeout` (or when
`fuel` runs out). -/
def completedResults (cfg : Config) (tl : ℕ → ℚ) (g : GNode S true) :
    ℕ → ℤ → ℕ → List (S × Move)
  | 0, _, _ => []
  | fuel + 1, d, k =>
    match runMethod cfg tl g d k with
    | none => completedResults cfg tl g fuel (d + 1) k
    | some (.error _) => []
    | some (.ok (r, k')) => r :: completedResults cfg tl g fuel (d + 1) k'

/-- `CustomPlayer.get_move` (game_agent.py:169-244).  Returns the chosen
move together with the number of `time_left()` queries performed. -/
def getMove (cfg : Config) (g : GNode S true) (legal : List Move)
    (tl : ℕ → ℚ) (fuel : ℕ) : Move × ℕ :=
  match legal with
  | [] => ((-1, -1), 0)
  | m0 :: _ =>
    let init : S × Move := (g.sc, m0)
    if cfg.iterative then
      let out := iterLoop cfg tl g fuel 1 init 0
      (out.1.2, out.2)
    else
      match runMethod cfg tl g cfg.search_depth 0 with
      | none => (m0, 0)
      | some (.error j) => (m0, j + 1)
      | some (.ok (r, k')) => (r.2, k')

end TimedModel

section HeuristicModel

/-- The data of a game state consumed by `custom_score` /
`diff_distance_from_mid` for a fixed perspective player: the board extent,
both players' `(row, col)` locations (`position(player) -> (row, col)` per
the external interface), the two legal-move counts, and the win/loss
reports. -/
structure HState where
  width : ℕ
  height : ℕ
  ownLoc : ℤ × ℤ
  oppLoc : ℤ × ℤ
  ownMoves : ℕ
  oppMoves : ℕ
  isLoser : Bool
  isWinner : Bool

/-- `diff_distance_from_mid` (game_agent.py:95-127).  `//` on the
non-negative board extent is integer division; `math.pow(x, 2)` and
`math.sqrt` are real squaring and square root. -/
noncomputable def diff_distance_from_mid (s : HState) : ℝ :=
  let mid_row : ℤ := (s.width : ℤ) / 2
  let mid_col : ℤ := (s.height : ℤ) / 2
  let own_row_diff : ℝ := ((s.ownLoc.1 - mid_row : ℤ) : ℝ) ^ 2
  let own_col_diff : ℝ := ((s.ownLoc.2 - mid_col : ℤ) : ℝ) ^ 2
  let opp_row_diff : ℝ := ((s.oppLoc.1 - mid_row : ℤ) : ℝ) ^ 2
  let opp_col_diff : ℝ := ((s.oppLoc.2 - mid_col : ℤ) : ℝ) ^ 2
  let weight : ℝ :=
    Real.sqrt (opp_row_diff + opp_col_diff) - Real.sqrt (own_row_diff + own_col_diff)
  ((s.ownMoves : ℝ) - (s.oppMoves : ℝ)) + weight

/-- `custom_score` (game_agent.py:39-45), valued in the extended reals so
that `float("-inf")` / `float("inf")` are `⊥` / `⊤`. -/
noncomputable def custom_score (s : HState) : EReal :=
  if s.isLoser = true then ⊥
  else if s.isWinner = true then ⊤
  else ((diff_distance_from_mid s : ℝ) : EReal)

/-- Euclidean distance between two points of the plane. -/
noncomputable def euclideanDist (p c : ℝ × ℝ) : ℝ :=
  Real.sqrt ((p.1 - c.1) ^ 2 + (p.2 - c.2) ^ 2)

/-- Modelled from the claim's words: the geometric center of a board with
`height` rows and `width` columns, in `(row, col)` coordinates — rows run
over `0 .. height-1` and columns over `0 .. width-1`. -/
noncomputable def geomCenter (s : HState) : ℝ × ℝ :=
  (((s.height : ℝ) - 1) / 2, ((s.width : ℝ) - 1) / 2)

/-- Modelled from the claim's words (C2): mobility difference plus the
difference of euclidean distances from the board's geometric center. -/
noncomputable def specHeuristic (s : HState) : ℝ :=
  ((s.ownMoves : ℝ) - (s.oppMoves : ℝ))
    + (euclideanDist ((s.oppLoc.1 : ℝ), (s.oppLoc.2 : ℝ)) (geomCenter s)
        - euclideanDist ((s.ownLoc.1 : ℝ), (s.ownLoc.2 : ℝ)) (geomCenter s))

/-- The comparison point the source actually uses:
`(width // 2, height // 2)`, its first component measured against the row
coordinate and its second against the column coordinate. -/
noncomputable def codeCenter (s : HState) : ℝ × ℝ :=
  ((((s.width : ℤ) / 2 : ℤ) : ℝ), (((s.height : ℤ) / 2 : ℤ) : ℝ))

/-- The C2 counterexample state: a 9-wide, 3-tall board, the player at
`(2,0)`, the opponent at `(2,2)`, both with two legal moves, non-terminal. -/
def hsCex : HState :=
  ⟨9, 3, (2, 0), (2, 2), 2, 2, false, false⟩

end HeuristicModel

section AuxDefs

variable {S : Type} [LinearOrder S] [OrderBot S] [OrderTop S]

/-- Lower bound on the clock-query indices appearing in a timed result. -/
def TRes.bound (r : TRes S) (k : ℕ) : Prop :=
  match r with
  | .error j => k ≤ j
  | .ok (_, k') => k ≤ k'

/-- All clock-query indices of all timed searches from a tree are bounded
below by the starting index. -/
def TBoundTree (t : GNode S true) : Prop :=
  ∀ (tl : ℕ → ℚ) (th : ℚ) (d : ℤ) (maxi : Bool) (k : ℕ) (a b : S),
    TRes.bound (minimaxT tl th t d maxi k) k ∧
    TRes.bound (alphabetaT tl th t d a b maxi k) k

/-- Loop version of `TBoundTree`. -/
def TBoundKids (cs : GNode S false) : Prop :=
  ∀ (tl : ℕ → ℚ) (th : ℚ) (d : ℤ) (best : S × Move) (k : ℕ) (a b : S),
    TRes.bound (mmMaxT tl th cs d best k) k ∧
    TRes.bound (mmMinT tl th cs d best k) k ∧
    TRes.bound (abMaxT tl th cs d a b best k) k ∧
    TRes.bound (abMinT tl th cs d a b best k) k

/-- A small concrete game tree over `IScore`, used to instantiate
hypothesis-bearing theorems: root at `(3,3)` with heuristic `7`, one legal
move `(2,3)` leading to a leaf at `(4,4)` with heuristic `5`. -/
def exTree : GNode IScore true :=
  .node (3, 3) ((7 : ℤ) : IScore)
    (.cons (2, 3) (.node (4, 4) ((5 : ℤ) : IScore) .nil) .nil)

/-- Running maximum of the scores of a `(move, score)` list, seeded with
`s` — the value traced by `max_score` through the maximizing loop. -/
def runMax (ps : List (Move × S)) (s : S) : S :=
  ps.foldl (fun acc p => max acc p.2) s

/-- Running minimum, seeded with `s` — the value traced by `min_score`
through the minimizing loop. -/
def runMin (ps : List (Move × S)) (s : S) : S :=
  ps.foldl (fun acc p => min acc p.2) s

/-- The Knuth-Moore relation between `alphabeta` and `minimax` at one
node, for every window `al < be`: a returned value inside the window is
exact, a value at or below `al` certifies the true value is at or below
`al`, and dually at `be`. -/
def KMTriple (t : GNode S true) : Prop :=
  ∀ (d : ℤ) (al be : S) (maxi : Bool), al < be →
    ((minimax t d maxi).1 ≤ al → (alphabeta t d al be maxi).1 ≤ al) ∧
    (al < (minimax t d maxi).1 → (minimax t d maxi).1 < be →
      (alphabeta t d al be maxi).1 = (minimax t d maxi).1) ∧
    (be ≤ (minimax t d maxi).1 → be ≤ (alphabeta t d al be maxi).1)

/-- Invariant carried through the maximizing loops: with window lower
bound `al`, running alpha `max al s0`, pruned state `s0` and unpruned
state `M`, the final pruned and unpruned values either agree up to `al`
or both certify a cutoff at `be`. -/
def AbMmMaxRel (cs : GNode S false) : Prop :=
  ∀ (d : ℤ) (al be s0 M : S) (mva mvm : Move),
    al < be → max al s0 < be → s0 ≤ max al M → M ≤ max al s0 →
    ((abMax cs d (max al s0) be (s0, mva)).1 ≤ max al (mmMax cs d (M, mvm)).1 ∧
      (mmMax cs d (M, mvm)).1 ≤ max al (abMax cs d (max al s0) be (s0, mva)).1) ∨
    (be ≤ (abMax cs d (max al s0) be (s0, mva)).1 ∧ be ≤ (mmMax cs d (M, mvm)).1)

/-- Dual invariant for the minimizing loops. -/
def AbMmMinRel (cs : GNode S false) : Prop :=
  ∀ (d : ℤ) (al be s0 M : S) (mva mvm : Move),
    al < be → al < min be s0 → min be M ≤ s0 → min be s0 ≤ M →
    ((min be (mmMin cs d (M, mvm)).1 ≤ (abMin cs d al (min be s0) (s0, mva)).1 ∧
      min be (abMin cs d al (min be s0) (s0, mva)).1 ≤ (mmMin cs d (M, mvm)).1) ∨
    ((abMin cs d al (min be s0) (s0, mva)).1 ≤ al ∧ (mmMin cs d (M, mvm)).1 ≤ al))

end AuxDefs

/-! ## Theorems -/

/-- Mutual structural induction for game trees and child lists, derived
by strong induction on size. -/
theorem gnode_induction {S : Type} {P : GNode S true → Prop} {Q : GNode S false → Prop}
    (hnode : ∀ loc sc kids, Q kids → P (.node loc sc kids))
    (hnil : Q .nil)
    (hcons : ∀ m t rest, P t → Q rest → Q (.cons m t rest)) :
    (∀ t : GNode S true, P t) ∧ (∀ cs : GNode S false, Q cs) := by
  have key : ∀ n : ℕ, (∀ t : GNode S true, sizeOf t ≤ n → P t) ∧
      (∀ cs : GNode S false, sizeOf cs ≤ n → Q cs) := by
    intro n
    induction n with
    | zero =>
      constructor
      · intro t ht; obtain ⟨loc, sc, kids⟩ := t; simp at ht
      · intro cs hcs
        cases cs with
        | nil => exact hnil
        | cons m t rest => simp at hcs
    | succ n ih =>
      constructor
      · intro t ht
        obtain ⟨loc, sc, kids⟩ := t
        exact hnode loc sc kids (ih.2 kids (by simp at ht; omega))
      · intro cs hcs
        cases cs with
        | nil => exact hnil
        | cons m t rest =>
          exact hcons m t rest (ih.1 t (by simp at hcs; omega))
            (ih.2 rest (by simp at hcs; omega))
  exact ⟨fun t => (key (sizeOf t)).1 t le_rfl, fun cs => (key (sizeOf cs)).2 cs le_rfl⟩

/-- Claim C7: for every configuration and state, `get_move` with an empty
legal-move list returns the sentinel `(-1, -1)` immediately, with zero
clock queries; the result does not depend on the game state, the clock or
the fuel, so no search and no heuristic evaluation takes place. -/
theorem getMove_empty_legal {S : Type} [LinearOrder S] [OrderBot S] [OrderTop S]
    (cfg : Config) (g : GNode S true) (tl : ℕ → ℚ) (fuel : ℕ) :
    getMove cfg g [] tl fuel = ((-1, -1), 0) := rfl

/-- Claim C8: for every game state that does not report both outcomes at
once, `custom_score` returns negative infinity when the player has lost
and positive infinity when the player has won. -/
theorem custom_score_terminal (s : HState)
    (h : ¬(s.isLoser = true ∧ s.isWinner = true)) :
    (s.isLoser = true → custom_score s = ⊥) ∧
    (s.isWinner = true → custom_score s = ⊤) := by
  constructor
  · intro hl; simp [custom_score, hl]
  · intro hw
    have hl : s.isLoser = false := by
      cases hcase : s.isLoser
      · rfl
      · exact absurd ⟨hcase, hw⟩ h
    simp [custom_score, hl, hw]

/-- Witness for C8 at concrete lost and won states. -/
theorem custom_score_terminal_witness :
    custom_score ⟨7, 7, (0, 0), (1, 1), 0, 8, true, false⟩ = ⊥ ∧
    custom_score ⟨7, 7, (0, 0), (1, 1), 8, 0, false, true⟩ = ⊤ :=
  ⟨(custom_score_terminal _ (by simp)).1 rfl,
   (custom_score_terminal _ (by simp)).2 rfl⟩

/-- Counterexample to C2 as stated: on a 9-wide, 3-tall board with the
player at `(2,0)` and the opponent at `(2,2)` (both with two legal moves,
non-terminal), the code's score is `0` while the claimed formula using
the board's geometric center gives `sqrt 5 - sqrt 17 < 0`. -/
theorem custom_score_ne_specHeuristic :
    custom_score hsCex ≠ ((specHeuristic hsCex : ℝ) : EReal) := by
  have hcode : custom_score hsCex = ((0 : ℝ) : EReal) := by
    rw [show custom_score hsCex = ((diff_distance_from_mid hsCex : ℝ) : EReal) from rfl]
    rw [show diff_distance_from_mid hsCex = 0 by unfold diff_distance_from_mid hsCex; norm_num]
  have hspec : specHeuristic hsCex = Real.sqrt 5 - Real.sqrt 17 := by
    unfold specHeuristic euclideanDist geomCenter hsCex
    norm_num
  rw [hcode, hspec, Ne, EReal.coe_eq_coe_iff]
  have h5 : Real.sqrt 5 < Real.sqrt 17 := Real.sqrt_lt_sqrt (by norm_num) (by norm_num)
  intro heq
  linarith

/-- Claim C2 (amended): for every non-terminal state the heuristic equals
the mobility difference plus the difference of euclidean distances from
the point `(width // 2, height // 2)` (integer division), whose first
component is measured against the row coordinate and second against the
column coordinate. -/
theorem custom_score_code_center (s : HState)
    (hl : s.isLoser = false) (hw : s.isWinner = false) :
    custom_score s =
      ((((s.ownMoves : ℝ) - (s.oppMoves : ℝ))
        + (euclideanDist ((s.oppLoc.1 : ℝ), (s.oppLoc.2 : ℝ)) (codeCenter s)
            - euclideanDist ((s.ownLoc.1 : ℝ), (s.ownLoc.2 : ℝ)) (codeCenter s)) : ℝ) : EReal) := by
  have hne : custom_score s = ((diff_distance_from_mid s : ℝ) : EReal) := by
    simp [custom_score, hl, hw]
  rw [hne, EReal.coe_eq_coe_iff]
  have harg : ∀ x y : ℤ, ((x - y : ℤ) : ℝ) ^ 2 = ((x : ℝ) - ((y : ℤ) : ℝ)) ^ 2 := by
    intro x y; push_cast; ring
  simp only [diff_distance_from_mid, euclideanDist, codeCenter, harg]

/-- Witness for the amended C2 at the concrete state `hsCex`. -/
theorem custom_score_code_center_witness :
    custom_score hsCex =
      ((((hsCex.ownMoves : ℝ) - (hsCex.oppMoves : ℝ))
        + (euclideanDist ((hsCex.oppLoc.1 : ℝ), (hsCex.oppLoc.2 : ℝ)) (codeCenter hsCex)
            - euclideanDist ((hsCex.ownLoc.1 : ℝ), (hsCex.ownLoc.2 : ℝ)) (codeCenter hsCex)) : ℝ) : EReal) :=
  custom_score_code_center hsCex rfl rfl

/-- With an unrecognized method name neither dispatch branch runs. -/
theorem runMethod_unrecognized {S : Type} [LinearOrder S] [OrderBot S] [OrderTop S]
    (cfg : Config) (h1 : ¬cfg.method = "minimax") (h2 : ¬cfg.method = "alphabeta")
    (tl : ℕ → ℚ) (g : GNode S true) (d : ℤ) (k : ℕ) :
    runMethod cfg tl g d k = (none : Option (TRes S)) := by
  simp [runMethod, h1, h2]

/-- With an unrecognized method name the iterative loop never updates its
state, never queries the clock and never raises, at every fuel — the
source's `while True` loop therefore never terminates. -/
theorem iterLoop_unrecognized {S : Type} [LinearOrder S] [OrderBot S] [OrderTop S]
    (cfg : Config) (tl : ℕ → ℚ) (g : GNode S true)
    (h1 : ¬cfg.method = "minimax") (h2 : ¬cfg.method = "alphabeta") :
    ∀ (fuel : ℕ) (d : ℤ) (best : S × Move) (k : ℕ),
      iterLoop cfg tl g fuel d best k = (best, k) := by
  intro fuel
  induction fuel with
  | zero => intro d best k; rfl
  | succ n ih =>
    intro d best k
    rw [iterLoop, runMethod_unrecognized cfg h1 h2]
    exact ih (d + 1) best k

/-- Claim C9 (code evaluated at the failing input): `__init__` accepts
and stores the unrecognized method name `"foobar"` instead of failing
fast, and `get_move` then returns the first legal move with zero clock
queries in both modes, performing no search at all — in iterative mode
the source loops forever. -/
theorem init_stores_getMove_skips_search :
    (customPlayerInit 3 true "foobar" 10).method = "foobar" ∧
    (∀ (S : Type) [LinearOrder S] [OrderBot S] [OrderTop S]
       (g : GNode S true) (m0 : Move) (rest : List Move) (tl : ℕ → ℚ) (fuel : ℕ),
       getMove (customPlayerInit 3 true "foobar" 10) g (m0 :: rest) tl fuel = (m0, 0) ∧
       getMove (customPlayerInit 3 false "foobar" 10) g (m0 :: rest) tl fuel = (m0, 0)) := by
  refine ⟨rfl, ?_⟩
  intro S _ _ _ g m0 rest tl fuel
  constructor
  · rw [getMove]
    simp only [customPlayerInit, if_pos rfl]
    rw [iterLoop_unrecognized _ _ _ (by decide) (by decide)]
    simp
  · rw [getMove]
    simp only [customPlayerInit]
    rw [runMethod_unrecognized _ (by decide) (by decide)]
    simp

/-- Claim C10: with fixed-depth search, a configured depth below 1, a
recognized method, a non-empty legal-move list and ample time, `get_move`
returns the agent's current board position, which is neither in the
supplied list nor the sentinel whenever the position itself is not. -/
theorem getMove_fixed_shallow {S : Type} [LinearOrder S] [OrderBot S] [OrderTop S]
    (cfg : Config) (g : GNode S true) (m0 : Move) (rest : List Move)
    (tl : ℕ → ℚ) (fuel : ℕ)
    (hit : cfg.iterative = false) (hd : cfg.search_depth < 1)
    (hm : cfg.method = "minimax" ∨ cfg.method = "alphabeta")
    (ht : cfg.threshold ≤ tl 0)
    (hmem : g.loc ∉ (m0 :: rest : List Move)) (hsent : g.loc ≠ (-1, -1)) :
    (getMove cfg g (m0 :: rest) tl fuel).1 = g.loc ∧
    (getMove cfg g (m0 :: rest) tl fuel).1 ∉ (m0 :: rest : List Move) ∧
    (getMove cfg g (m0 :: rest) tl fuel).1 ≠ (-1, -1) := by
  have hnotlt : ¬tl 0 < cfg.threshold := not_lt.2 ht
  obtain ⟨loc, sc, kids⟩ := g
  have hloc : (GNode.node loc sc kids).loc = loc := rfl
  have hmain : (getMove cfg (GNode.node loc sc kids) (m0 :: rest) tl fuel).1 = loc := by
    rw [getMove]
    simp only [hit, Bool.false_eq_true, if_false]
    rcases hm with hm | hm
    · rw [runMethod, if_pos hm, minimaxT]
      simp [hnotlt, hd]
    · rw [runMethod]
      rw [if_neg ?hne, if_pos hm, alphabetaT]
      case hne => intro hmm; rw [hmm] at hm; exact absurd hm (by decide)
      simp [hnotlt, hd]
  rw [hloc] at hmem hsent ⊢
  exact ⟨hmain, by rw [hmain]; exact hmem, by rw [hmain]; exact hsent⟩

/-- Witness for C10 at a concrete configuration and state. -/
theorem getMove_fixed_shallow_witness :
    ((0 : ℚ) ≤ 100 ∧ ((3, 3) : Move) ∉ ([(2, 3)] : List Move)) ∧
    (getMove (customPlayerInit 0 false "minimax" 0) exTree [(2, 3)] (fun _ => 100) 0).1 = exTree.loc := by
  refine ⟨⟨by norm_num, by decide⟩, ?_⟩
  exact (getMove_fixed_shallow (customPlayerInit 0 false "minimax" 0) exTree (2, 3) []
    (fun _ => 100) 0 rfl (by decide) (Or.inl rfl) (by decide) (by decide) (by decide)).1

/-- A clock-index lower bound weakens to smaller indices. -/
theorem tres_bound_mono {S : Type} [LinearOrder S] [OrderBot S] [OrderTop S]
    (r : TRes S) (i j : ℕ) (hij : i ≤ j) (h : TRes.bound r j) : TRes.bound r i := by
  cases r with
  | error e => simp [TRes.bound] at h ⊢; omega
  | ok p => obtain ⟨res, k'⟩ := p; simp [TRes.bound] at h ⊢; omega

/-- Every clock-query index reached by a timed search is at least the
index the search started from. -/
theorem tbound_all {S : Type} [LinearOrder S] [OrderBot S] [OrderTop S] :
    ∀ n : ℕ, (∀ t : GNode S true, sizeOf t ≤ n → TBoundTree t) ∧
             (∀ cs : GNode S false, sizeOf cs ≤ n → TBoundKids cs) := by
  intro n
  induction n with
  | zero =>
    constructor
    · intro t ht; obtain ⟨loc, sc, kids⟩ := t; simp at ht
    · intro cs hcs
      cases cs with
      | nil =>
        intro tl th d best k a b
        refine ⟨?_, ?_, ?_, ?_⟩ <;> simp [mmMaxT, mmMinT, abMaxT, abMinT, TRes.bound]
      | cons m t rest => simp at hcs
  | succ n ih =>
    constructor
    · intro t ht
      obtain ⟨loc, sc, kids⟩ := t
      have hk : sizeOf kids ≤ n := by simp at ht; omega
      intro tl th d maxi k a b
      constructor
      · rw [minimaxT]
        by_cases h1 : tl k < th
        · simp only [if_pos h1]; simp [TRes.bound]
        · simp only [if_neg h1]
          by_cases h2 : d < 1 ∨ GNode.isNil kids = true
          · simp only [if_pos h2]; simp [TRes.bound]
          · simp only [if_neg h2]
            cases maxi with
            | true =>
              simp only [if_pos rfl]
              exact tres_bound_mono _ _ _ (Nat.le_succ k)
                ((ih.2 kids hk tl th (d - 1) (⊥, kids.headMove) (k + 1) a b).1)
            | false =>
              simp only [Bool.false_eq_true, if_false]
              exact tres_bound_mono _ _ _ (Nat.le_succ k)
                ((ih.2 kids hk tl th (d - 1) (⊤, kids.headMove) (k + 1) a b).2.1)
      · rw [alphabetaT]
        by_cases h1 : tl k < th
        · simp only [if_pos h1]; simp [TRes.bound]
        · simp only [if_neg h1]
          by_cases h2 : d < 1 ∨ GNode.isNil kids = true
          · simp only [if_pos h2]; simp [TRes.bound]
          · simp only [if_neg h2]
            cases maxi with
            | true =>
              simp only [if_pos rfl]
              exact tres_bound_mono _ _ _ (Nat.le_succ k)
                ((ih.2 kids hk tl th (d - 1) (⊥, kids.headMove) (k + 1) a b).2.2.1)
            | false =>
              simp only [Bool.false_eq_true, if_false]
              exact tres_bound_mono _ _ _ (Nat.le_succ k)
                ((ih.2 kids hk tl th (d - 1) (⊤, kids.headMove) (k + 1) a b).2.2.2)
    · intro cs hcs
      cases cs with
      | nil =>
        intro tl th d best k a b
        refine ⟨?_, ?_, ?_, ?_⟩ <;> simp [mmMaxT, mmMinT, abMaxT, abMinT, TRes.bound]
      | cons m t rest =>
        have hts : sizeOf t ≤ n := by simp at hcs; omega
        have hrs : sizeOf rest ≤ n := by simp at hcs; omega
        intro tl th d best k a b
        refine ⟨?_, ?_, ?_, ?_⟩
        · rw [mmMaxT]
          cases hres : minimaxT tl th t d false k with
          | error j =>
            have hb := (ih.1 t hts tl th d false k a b).1
            rw [hres] at hb; exact hb
          | ok p =>
            obtain ⟨r, k'⟩ := p
            have hb := (ih.1 t hts tl th d false k a b).1
            rw [hres] at hb
            exact tres_bound_mono _ _ _ hb ((ih.2 rest hrs tl th d _ k' a b).1)
        · rw [mmMinT]
          cases hres : minimaxT tl th t d true k with
          | error j =>
            have hb := (ih.1 t hts tl th d true k a b).1
            rw [hres] at hb; exact hb
          | ok p =>
            obtain ⟨r, k'⟩ := p
            have hb := (ih.1 t hts tl th d true k a b).1
            rw [hres] at hb
            exact tres_bound_mono _ _ _ hb ((ih.2 rest hrs tl th d _ k' a b).2.1)
        · rw [abMaxT]
          cases hres : alphabetaT tl th t d a b false k with
          | error j =>
            have hb := (ih.1 t hts tl th d false k a b).2
            rw [hres] at hb; exact hb
          | ok p =>
            obtain ⟨r, k'⟩ := p
            have hb := (ih.1 t hts tl th d false k a b).2
            rw [hres] at hb
            by_cases hbr : b ≤ max a (if best.1 < r.1 then (r.1, m) else best).1
            · simp only [if_pos hbr, TRes.bound]; exact hb
            · simp only [if_neg hbr]
              exact tres_bound_mono _ _ _ hb ((ih.2 rest hrs tl th d _ k' _ b).2.2.1)
        · rw [abMinT]
          cases hres : alphabetaT tl th t d a b true k with
          | error j =>
            have hb := (ih.1 t hts tl th d true k a b).2
            rw [hres] at hb; exact hb
          | ok p =>
            obtain ⟨r, k'⟩ := p
            have hb := (ih.1 t hts tl th d true k a b).2
            rw [hres] at hb
            by_cases hbr : min b (if r.1 < best.1 then (r.1, m) else best).1 ≤ a
            · simp only [if_pos hbr, TRes.bound]; exact hb
            · simp only [if_neg hbr]
              exact tres_bound_mono _ _ _ hb ((ih.2 rest hrs tl th d _ k' a _).2.2.2)

/-- If the entry clock check passes, any later abort of `minimax` carries
a strictly larger query index. -/
theorem minimaxT_no_entry_error {S : Type} [LinearOrder S] [OrderBot S] [OrderTop S]
    (tl : ℕ → ℚ) (th : ℚ) (t : GNode S true) (d : ℤ) (maxi : Bool) (k : ℕ)
    (h1 : ¬tl k < th) (j : ℕ) (h : minimaxT tl th t d maxi k = .error j) :
    k + 1 ≤ j := by
  obtain ⟨loc, sc, kids⟩ := t
  rw [minimaxT] at h
  simp only [if_neg h1] at h
  by_cases h2 : d < 1 ∨ GNode.isNil kids = true
  · rw [if_pos h2] at h; cases h
  · rw [if_neg h2] at h
    cases maxi with
    | true =>
      simp only [if_pos rfl, if_true] at h
      have hb := ((tbound_all (sizeOf kids)).2 kids le_rfl tl th (d - 1)
        (⊥, GNode.headMove kids) (k + 1) ⊥ ⊥).1
      rw [h] at hb; exact hb
    | false =>
      simp only [Bool.false_eq_true, if_false] at h
      have hb := ((tbound_all (sizeOf kids)).2 kids le_rfl tl th (d - 1)
        (⊤, GNode.headMove kids) (k + 1) ⊥ ⊥).2.1
      rw [h] at hb; exact hb

/-- If the entry clock check passes, any later abort of `alphabeta`
carries a strictly larger query index. -/
theorem alphabetaT_no_entry_error {S : Type} [LinearOrder S] [OrderBot S] [OrderTop S]
    (tl : ℕ → ℚ) (th : ℚ) (t : GNode S true) (d : ℤ) (a b : S) (maxi : Bool) (k : ℕ)
    (h1 : ¬tl k < th) (j : ℕ) (h : alphabetaT tl th t d a b maxi k = .error j) :
    k + 1 ≤ j := by
  obtain ⟨loc, sc, kids⟩ := t
  rw [alphabetaT] at h
  simp only [if_neg h1] at h
  by_cases h2 : d < 1 ∨ GNode.isNil kids = true
  · rw [if_pos h2] at h; cases h
  · rw [if_neg h2] at h
    cases maxi with
    | true =>
      simp only [if_pos rfl, if_true] at h
      have hb := ((tbound_all (sizeOf kids)).2 kids le_rfl tl th (d - 1)
        (⊥, GNode.headMove kids) (k + 1) a b).2.2.1
      rw [h] at hb; exact hb
    | false =>
      simp only [Bool.false_eq_true, if_false] at h
      have hb := ((tbound_all (sizeOf kids)).2 kids le_rfl tl th (d - 1)
        (⊤, GNode.headMove kids) (k + 1) a b).2.2.2
      rw [h] at hb; exact hb

/-- Claim C3 (amended): every call to `minimax` and to `alphabeta` first
queries the remaining time and raises the cancellation at its entry
exactly when the queried remaining time is strictly below the threshold
(the source compares with `<`, not `<=`). -/
theorem search_aborts_iff_entry_clock_strictly_below {S : Type}
    [LinearOrder S] [OrderBot S] [OrderTop S]
    (tl : ℕ → ℚ) (th : ℚ) (t : GNode S true) (d : ℤ) (a b : S) (maxi : Bool) (k : ℕ) :
    (minimaxT tl th t d maxi k = .error k ↔ tl k < th) ∧
    (alphabetaT tl th t d a b maxi k = .error k ↔ tl k < th) := by
  constructor
  · constructor
    · intro h
      by_contra h1
      have := minimaxT_no_entry_error tl th t d maxi k h1 k h
      omega
    · intro h1
      obtain ⟨loc, sc, kids⟩ := t
      rw [minimaxT, if_pos h1]
  · constructor
    · intro h
      by_contra h1
      have := alphabetaT_no_entry_error tl th t d a b maxi k h1 k h
      omega
    · intro h1
      obtain ⟨loc, sc, kids⟩ := t
      rw [alphabetaT, if_pos h1]

/-- Counterexample to C3 as stated: when the remaining time equals the
threshold — so it "does not exceed" it — both searches return a result
instead of raising the cancellation. -/
theorem timed_search_equal_threshold_returns :
    ((10 : ℚ) ≤ 10) ∧
    minimaxT (fun _ => (10 : ℚ)) 10 (GNode.node (0, 0) ((0 : ℤ) : IScore) GNode.nil) 0 true 0
      = .ok ((((0 : ℤ) : IScore), (0, 0)), 1) ∧
    alphabetaT (fun _ => (10 : ℚ)) 10 (GNode.node (0, 0) ((0 : ℤ) : IScore) GNode.nil) 0 ⊥ ⊤ true 0
      = .ok ((((0 : ℤ) : IScore), (0, 0)), 1) := by
  refine ⟨by norm_num, ?_, ?_⟩
  · rw [minimaxT, if_neg (by norm_num), if_pos (by simp [GNode.isNil])]
  · rw [alphabetaT, if_neg (by norm_num), if_pos (by simp [GNode.isNil])]

/-- The iterative-deepening loop returns the last fully completed
iteration's result, or its incoming fallback when none completed. -/
theorem iterLoop_getLastD {S : Type} [LinearOrder S] [OrderBot S] [OrderTop S]
    (cfg : Config) (tl : ℕ → ℚ) (g : GNode S true) :
    ∀ (fuel : ℕ) (d : ℤ) (best : S × Move) (k : ℕ),
      (iterLoop cfg tl g fuel d best k).1 = (completedResults cfg tl g fuel d k).getLastD best := by
  intro fuel
  induction fuel with
  | zero => intro d best k; rfl
  | succ n ih =>
    intro d best k
    rw [iterLoop, completedResults]
    cases hr : runMethod cfg tl g d k with
    | none => simp only [hr]; exact ih (d + 1) best k
    | some r =>
      cases r with
      | error j => simp only [hr]; rfl
      | ok p =>
        obtain ⟨r, k'⟩ := p
        simp only [hr, List.getLastD_cons]
        exact ih (d + 1) r k'

/-- Claim C4: when an iteration raises the cancellation, the driver
returns the `(score, move)` of the most recently fully completed depth
iteration — the fold is seeded with the heuristic value of the current
state paired with the first legal move, and no value of the interrupted
iteration is ever used. -/
theorem getMove_returns_last_completed {S : Type} [LinearOrder S] [OrderBot S] [OrderTop S]
    (cfg : Config) (g : GNode S true) (m0 : Move) (rest : List Move) (tl : ℕ → ℚ) :
    (∀ (fuel : ℕ) (d : ℤ) (best : S × Move) (k : ℕ),
        (iterLoop cfg tl g fuel d best k).1 = (completedResults cfg tl g fuel d k).getLastD best) ∧
    (cfg.iterative = true →
      ∀ fuel : ℕ, (getMove cfg g (m0 :: rest) tl fuel).1
        = ((completedResults cfg tl g fuel 1 0).getLastD (g.sc, m0)).2) := by
  refine ⟨iterLoop_getLastD cfg tl g, ?_⟩
  intro hit fuel
  rw [getMove]
  simp only [hit, if_true]
  rw [iterLoop_getLastD cfg tl g fuel 1 (g.sc, m0) 0]

/-- Witness for C4 on a concrete run whose later iterations time out. -/
theorem getMove_returns_last_completed_witness :
    (getMove (customPlayerInit 2 true "minimax" 9) exTree [(2, 3)] (fun k => (12 : ℚ) - k) 9).1
      = ((completedResults (customPlayerInit 2 true "minimax" 9) (fun k => (12 : ℚ) - k) exTree 9 1 0).getLastD
          (exTree.sc, (2, 3))).2 :=
  (getMove_returns_last_completed (customPlayerInit 2 true "minimax" 9) exTree (2, 3) []
    (fun k => (12 : ℚ) - k)).2 rfl 9

/-- Every search loop returns either its incoming move or one of the
moves it iterates over. -/
theorem loops_move_mem {S : Type} [LinearOrder S] [OrderBot S] [OrderTop S] :
    ∀ cs : GNode S false, ∀ (d : ℤ) (a b : S) (best : S × Move),
      ((mmMax cs d best).2 = best.2 ∨ (mmMax cs d best).2 ∈ cs.moves) ∧
      ((mmMin cs d best).2 = best.2 ∨ (mmMin cs d best).2 ∈ cs.moves) ∧
      ((abMax cs d a b best).2 = best.2 ∨ (abMax cs d a b best).2 ∈ cs.moves) ∧
      ((abMin cs d a b best).2 = best.2 ∨ (abMin cs d a b best).2 ∈ cs.moves) := by
  refine (gnode_induction (P := fun _ => True) ?_ ?_ ?_).2
  · intro loc sc kids ih; trivial
  · intro d a b best
    refine ⟨?_, ?_, ?_, ?_⟩ <;> simp [mmMax, mmMin, abMax, abMin]
  · intro m t rest iht ihr
    intro d a b best
    have hmoves : (GNode.cons m t rest).moves = m :: rest.moves := by rw [GNode.moves]
    have hstep : ∀ p : S × Move, (if best.1 < p.1 then (p.1, m) else best).2 = m ∨
        (if best.1 < p.1 then (p.1, m) else best).2 = best.2 := by
      intro p; by_cases hp : best.1 < p.1 <;> simp [hp]
    have hstep' : ∀ p : S × Move, (if p.1 < best.1 then (p.1, m) else best).2 = m ∨
        (if p.1 < best.1 then (p.1, m) else best).2 = best.2 := by
      intro p; by_cases hp : p.1 < best.1 <;> simp [hp]
    have combine : ∀ (x : Move) (B : S × Move),
        (x = B.2 ∨ x ∈ rest.moves) → (B.2 = m ∨ B.2 = best.2) →
        (x = best.2 ∨ x ∈ (GNode.cons m t rest).moves) := by
      intro x B h1 h2
      rcases h1 with h1 | h1
      · rcases h2 with h2 | h2
        · right; rw [hmoves, h1, h2]; exact List.mem_cons_self m rest.moves
        · left; rw [h1, h2]
      · right; rw [hmoves]; exact List.mem_cons_of_mem m h1
    have direct : ∀ B : S × Move, (B.2 = m ∨ B.2 = best.2) →
        (B.2 = best.2 ∨ B.2 ∈ (GNode.cons m t rest).moves) := by
      intro B h2
      rcases h2 with h2 | h2
      · right; rw [hmoves, h2]; exact List.mem_cons_self m rest.moves
      · left; exact h2
    refine ⟨?_, ?_, ?_, ?_⟩
    · rw [mmMax]
      exact combine _ _ (ihr d a b _).1 (hstep (minimax t d false))
    · rw [mmMin]
      exact combine _ _ (ihr d a b _).2.1 (hstep' (minimax t d true))
    · rw [abMax]
      by_cases hbr : b ≤ max a (if best.1 < (alphabeta t d a b false).1
          then ((alphabeta t d a b false).1, m) else best).1
      · simp only [if_pos hbr]
        exact direct _ (hstep (alphabeta t d a b false))
      · simp only [if_neg hbr]
        exact combine _ _ (ihr d _ b _).2.2.1 (hstep (alphabeta t d a b false))
    · rw [abMin]
      by_cases hbr : min b (if (alphabeta t d a b true).1 < best.1
          then ((alphabeta t d a b true).1, m) else best).1 ≤ a
      · simp only [if_pos hbr]
        exact direct _ (hstep' (alphabeta t d a b true))
      · simp only [if_neg hbr]
        exact combine _ _ (ihr d a _ _).2.2.2 (hstep' (alphabeta t d a b true))

/-- The legal-move list is empty exactly when the source's length test
fires. -/
theorem moves_nil_iff {S : Type} (cs : GNode S false) :
    cs.moves = [] ↔ cs.isNil = true := by
  cases cs with
  | nil => simp [GNode.moves, GNode.isNil]
  | cons m t rest => simp [GNode.moves, GNode.isNil]

/-- `legal_moves[0]` is a legal move when the list is non-empty. -/
theorem headMove_mem {S : Type} (cs : GNode S false) (h : ¬cs.isNil = true) :
    cs.headMove ∈ cs.moves := by
  cases cs with
  | nil => simp [GNode.isNil] at h
  | cons m t rest => simp [GNode.headMove, GNode.moves]

/-- Claim C5 (amended): when `depth >= 1` and the legal-move set is
non-empty, both searches return a member of the legal-move set; otherwise
they return the agent's current position at that node — not the sentinel
`(-1, -1)`. -/
theorem search_move_valid {S : Type} [LinearOrder S] [OrderBot S] [OrderTop S]
    (t : GNode S true) (d : ℤ) (a b : S) (maxi : Bool) :
    ((1 ≤ d ∧ t.legalMoves ≠ []) →
      (minimax t d maxi).2 ∈ t.legalMoves ∧ (alphabeta t d a b maxi).2 ∈ t.legalMoves) ∧
    ((d < 1 ∨ t.legalMoves = []) →
      (minimax t d maxi).2 = t.loc ∧ (alphabeta t d a b maxi).2 = t.loc) := by
  obtain ⟨loc, sc, kids⟩ := t
  have hlm : (GNode.node loc sc kids).legalMoves = kids.moves := rfl
  have hloc : (GNode.node loc sc kids).loc = loc := rfl
  rw [hlm, hloc]
  constructor
  · rintro ⟨hd, hne⟩
    have hguard : ¬(d < 1 ∨ kids.isNil = true) := by
      rw [not_or]
      exact ⟨by omega, fun hn => hne ((moves_nil_iff kids).2 hn)⟩
    have hhead := headMove_mem kids (fun hn => hne ((moves_nil_iff kids).2 hn))
    constructor
    · rw [minimax, if_neg hguard]
      cases maxi with
      | true =>
        simp only [if_pos rfl, if_true]
        rcases (loops_move_mem kids (d - 1) a b (⊥, kids.headMove)).1 with h | h
        · rw [h]; exact hhead
        · exact h
      | false =>
        simp only [Bool.false_eq_true, if_false]
        rcases (loops_move_mem kids (d - 1) a b (⊤, kids.headMove)).2.1 with h | h
        · rw [h]; exact hhead
        · exact h
    · rw [alphabeta, if_neg hguard]
      cases maxi with
      | true =>
        simp only [if_pos rfl, if_true]
        rcases (loops_move_mem kids (d - 1) a b (⊥, kids.headMove)).2.2.1 with h | h
        · rw [h]; exact hhead
        · exact h
      | false =>
        simp only [Bool.false_eq_true, if_false]
        rcases (loops_move_mem kids (d - 1) a b (⊤, kids.headMove)).2.2.2 with h | h
        · rw [h]; exact hhead
        · exact h
  · intro hleaf
    have hguard : d < 1 ∨ kids.isNil = true := by
      rcases hleaf with h | h
      · exact Or.inl h
      · exact Or.inr ((moves_nil_iff kids).1 h)
    rw [minimax, if_pos hguard, alphabeta, if_pos hguard]
    exact ⟨rfl, rfl⟩

/-- Witness for the amended C5 at a concrete tree. -/
theorem search_move_valid_witness :
    (minimax exTree 1 true).2 ∈ exTree.legalMoves ∧
    (1 : ℤ) ≤ 1 ∧ exTree.legalMoves ≠ [] :=
  ⟨((search_move_valid exTree 1 ⊥ ⊤ true).1
      ⟨le_rfl, by simp [exTree, GNode.legalMoves, GNode.kids, GNode.moves]⟩).1,
    le_rfl, by simp [exTree, GNode.legalMoves, GNode.kids, GNode.moves]⟩

/-- Counterexample to C5 as stated: at a node with an empty legal-move
set, `minimax` returns the player's current position `(5,5)`, not the
sentinel `(-1, -1)`. -/
theorem minimax_empty_moves_returns_location :
    GNode.legalMoves (GNode.node ((5 : ℤ), (5 : ℤ)) ((0 : ℤ) : IScore) GNode.nil) = [] ∧
    (minimax (GNode.node ((5 : ℤ), (5 : ℤ)) ((0 : ℤ) : IScore) GNode.nil) 3 true).2 = (5, 5) ∧
    (((5 : ℤ), (5 : ℤ)) : Move) ≠ (-1, -1) := by
  refine ⟨by simp [GNode.legalMoves, GNode.kids, GNode.moves], ?_, by decide⟩
  rw [minimax, if_pos (Or.inr (by rw [GNode.isNil]))]

/-- The running maximum never drops below its seed. -/
theorem le_runMax {S : Type} [LinearOrder S] :
    ∀ (ps : List (Move × S)) (s : S), s ≤ runMax ps s := by
  intro ps
  induction ps with
  | nil => intro s; exact le_rfl
  | cons p ps ih =>
    intro s
    calc s ≤ max s p.2 := le_max_left s p.2
    _ ≤ runMax ps (max s p.2) := ih (max s p.2)

/-- The running minimum never rises above its seed. -/
theorem runMin_le {S : Type} [LinearOrder S] :
    ∀ (ps : List (Move × S)) (s : S), runMin ps s ≤ s := by
  intro ps
  induction ps with
  | nil => intro s; exact le_rfl
  | cons p ps ih =>
    intro s
    calc runMin ps (min s p.2) ≤ min s p.2 := ih (min s p.2)
    _ ≤ s := min_le_left s p.2

/-- The maximizing loop computes the running maximum of the child values
and keeps the earliest move that strictly improved on the running
maximum. -/
theorem mmMax_spec {S : Type} [LinearOrder S] [OrderBot S] [OrderTop S] :
    ∀ (cs : GNode S false) (d : ℤ) (s0 : S) (mv : Move),
      (mmMax cs d (s0, mv)).1 = runMax (childPairs cs d false) s0 ∧
      (s0 < runMax (childPairs cs d false) s0 →
        (childPairs cs d false).find?
            (fun p => decide (p.2 = runMax (childPairs cs d false) s0))
          = some ((mmMax cs d (s0, mv)).2, runMax (childPairs cs d false) s0)) ∧
      (runMax (childPairs cs d false) s0 ≤ s0 → (mmMax cs d (s0, mv)).2 = mv) := by
  refine (gnode_induction (P := fun _ => True) ?_ ?_ ?_).2
  · intro loc sc kids ih; trivial
  · intro d s0 mv
    rw [mmMax, childPairs]
    exact ⟨rfl, by intro h; exact absurd h (lt_irrefl s0), fun _ => rfl⟩
  · intro m t rest iht ihr
    intro d s0 mv
    have hcp : childPairs (GNode.cons m t rest) d false
        = (m, (minimax t d false).1) :: childPairs rest d false := by
      rw [childPairs]
    set v := (minimax t d false).1 with hv
    have hrm : runMax (childPairs (GNode.cons m t rest) d false) s0
        = runMax (childPairs rest d false) (max s0 v) := by
      rw [hcp]; rfl
    rw [mmMax]
    by_cases hlt : s0 < v
    · have hmax : max s0 v = v := max_eq_right (le_of_lt hlt)
      have hstep : (if (s0, mv).1 < (minimax t d false).1
          then ((minimax t d false).1, m) else (s0, mv)) = (v, m) := by
        rw [if_pos hlt]
      rw [hstep]
      obtain ⟨ih1, ih2, ih3⟩ := ihr d v m
      have hF : runMax (childPairs (GNode.cons m t rest) d false) s0
          = runMax (childPairs rest d false) v := by rw [hrm, hmax]
      refine ⟨by rw [hF]; exact ih1, ?_, ?_⟩
      · intro _
        rw [hF, hcp]
        by_cases hvF : v < runMax (childPairs rest d false) v
        · rw [List.find?_cons_of_neg, ih2 hvF]
          simp only [decide_eq_true_eq]
          exact ne_of_lt hvF
        · have hFv : runMax (childPairs rest d false) v = v :=
            le_antisymm (not_lt.1 hvF) (le_runMax _ v)
          rw [hFv, List.find?_cons_of_pos, ih3 (le_of_eq hFv)]
          simp
      · intro hle
        rw [hF] at hle
        exact absurd (lt_of_lt_of_le hlt (le_runMax _ v)) (not_lt.2 hle)
    · have hmax : max s0 v = s0 := max_eq_left (not_lt.1 hlt)
      have hstep : (if (s0, mv).1 < (minimax t d false).1
          then ((minimax t d false).1, m) else (s0, mv)) = (s0, mv) := by
        rw [if_neg hlt]
      rw [hstep]
      obtain ⟨ih1, ih2, ih3⟩ := ihr d s0 mv
      have hF : runMax (childPairs (GNode.cons m t rest) d false) s0
          = runMax (childPairs rest d false) s0 := by rw [hrm, hmax]
      refine ⟨by rw [hF]; exact ih1, ?_, ?_⟩
      · intro hs
        rw [hF] at hs ⊢
        rw [hcp, List.find?_cons_of_neg, ih2 hs]
        simp only [decide_eq_true_eq]
        intro hveq
        rw [hveq] at hlt
        exact hlt hs
      · intro hle
        rw [hF] at hle
        exact ih3 hle

/-- The minimizing loop computes the running minimum of the child values
and keeps the earliest strictly improving move. -/
theorem mmMin_spec {S : Type} [LinearOrder S] [OrderBot S] [OrderTop S] :
    ∀ (cs : GNode S false) (d : ℤ) (s0 : S) (mv : Move),
      (mmMin cs d (s0, mv)).1 = runMin (childPairs cs d true) s0 ∧
      (runMin (childPairs cs d true) s0 < s0 →
        (childPairs cs d true).find?
            (fun p => decide (p.2 = runMin (childPairs cs d true) s0))
          = some ((mmMin cs d (s0, mv)).2, runMin (childPairs cs d true) s0)) ∧
      (s0 ≤ runMin (childPairs cs d true) s0 → (mmMin cs d (s0, mv)).2 = mv) := by
  refine (gnode_induction (P := fun _ => True) ?_ ?_ ?_).2
  · intro loc sc kids ih; trivial
  · intro d s0 mv
    rw [mmMin, childPairs]
    exact ⟨rfl, by intro h; exact absurd h (lt_irrefl s0), fun _ => rfl⟩
  · intro m t rest iht ihr
    intro d s0 mv
    have hcp : childPairs (GNode.cons m t rest) d true
        = (m, (minimax t d true).1) :: childPairs rest d true := by
      rw [childPairs]
    set v := (minimax t d true).1 with hv
    have hrm : runMin (childPairs (GNode.cons m t rest) d true) s0
        = runMin (childPairs rest d true) (min s0 v) := by
      rw [hcp]; rfl
    rw [mmMin]
    by_cases hlt : v < s0
    · have hmin : min s0 v = v := min_eq_right (le_of_lt hlt)
      have hstep : (if (minimax t d true).1 < (s0, mv).1
          then ((minimax t d true).1, m) else (s0, mv)) = (v, m) := by
        rw [if_pos hlt]
      rw [hstep]
      obtain ⟨ih1, ih2, ih3⟩ := ihr d v m
      have hF : runMin (childPairs (GNode.cons m t rest) d true) s0
          = runMin (childPairs rest d true) v := by rw [hrm, hmin]
      refine ⟨by rw [hF]; exact ih1, ?_, ?_⟩
      · intro _
        rw [hF, hcp]
        by_cases hvF : runMin (childPairs rest d true) v < v
        · rw [List.find?_cons_of_neg, ih2 hvF]
          simp only [decide_eq_true_eq]
          exact (ne_of_lt hvF).symm
        · have hFv : runMin (childPairs rest d true) v = v :=
            le_antisymm (runMin_le _ v) (not_lt.1 hvF)
          rw [hFv, List.find?_cons_of_pos, ih3 (le_of_eq hFv.symm)]
          simp
      · intro hle
        rw [hF] at hle
        exact absurd (lt_of_le_of_lt (runMin_le _ v) hlt) (not_lt.2 hle)
    · have hmin : min s0 v = s0 := min_eq_left (not_lt.1 hlt)
      have hstep : (if (minimax t d true).1 < (s0, mv).1
          then ((minimax t d true).1, m) else (s0, mv)) = (s0, mv) := by
        rw [if_neg hlt]
      rw [hstep]
      obtain ⟨ih1, ih2, ih3⟩ := ihr d s0 mv
      have hF : runMin (childPairs (GNode.cons m t rest) d true) s0
          = runMin (childPairs rest d true) s0 := by rw [hrm, hmin]
      refine ⟨by rw [hF]; exact ih1, ?_, ?_⟩
      · intro hs
        rw [hF] at hs ⊢
        rw [hcp, List.find?_cons_of_neg, ih2 hs]
        simp only [decide_eq_true_eq]
        intro hveq
        rw [hveq] at hlt
        exact hlt hs
      · intro hle
        rw [hF] at hle
        exact ih3 hle

/-- Claim C6: at depth at least 1 with a non-empty move set, `minimax`
returns, in the maximizing case, the greatest score among the recursive
evaluations of the legal moves at `depth - 1` with the flag flipped,
paired with the earliest-enumerated move achieving it (`find?` returns
the first match); in the minimizing case, symmetrically the smallest
score and its earliest achiever. -/
theorem minimax_selection {S : Type} [LinearOrder S] [OrderBot S] [OrderTop S]
    (loc : Move) (sc : S) (cs : GNode S false) (d : ℤ)
    (hd : 1 ≤ d) (hne : ¬cs.isNil = true) :
    ((minimax (GNode.node loc sc cs) d true).1 = runMax (childPairs cs (d - 1) false) ⊥ ∧
      (childPairs cs (d - 1) false).find?
          (fun p => decide (p.2 = runMax (childPairs cs (d - 1) false) ⊥))
        = some ((minimax (GNode.node loc sc cs) d true).2,
            runMax (childPairs cs (d - 1) false) ⊥)) ∧
    ((minimax (GNode.node loc sc cs) d false).1 = runMin (childPairs cs (d - 1) true) ⊤ ∧
      (childPairs cs (d - 1) true).find?
          (fun p => decide (p.2 = runMin (childPairs cs (d - 1) true) ⊤))
        = some ((minimax (GNode.node loc sc cs) d false).2,
            runMin (childPairs cs (d - 1) true) ⊤)) := by
  have hguard : ¬(d < 1 ∨ cs.isNil = true) := by
    rw [not_or]; exact ⟨by omega, hne⟩
  constructor
  · rw [minimax, if_neg hguard]
    simp only [if_pos rfl, if_true]
    obtain ⟨h1, h2, h3⟩ := mmMax_spec cs (d - 1) ⊥ cs.headMove
    refine ⟨h1, ?_⟩
    by_cases hM : (⊥ : S) < runMax (childPairs cs (d - 1) false) ⊥
    · exact h2 hM
    · have hMb : runMax (childPairs cs (d - 1) false) ⊥ = ⊥ :=
        le_bot_iff.1 (not_lt.1 hM)
      rw [h3 (le_of_eq hMb), hMb]
      cases cs with
      | nil => simp [GNode.isNil] at hne
      | cons m t rest =>
        have hcp : childPairs (GNode.cons m t rest) (d - 1) false
            = (m, (minimax t (d - 1) false).1) :: childPairs rest (d - 1) false := by
          rw [childPairs]
        have hvb : (minimax t (d - 1) false).1 = ⊥ := by
          have hle : (minimax t (d - 1) false).1
              ≤ runMax (childPairs (GNode.cons m t rest) (d - 1) false) ⊥ := by
            rw [hcp]
            calc (minimax t (d - 1) false).1
                ≤ max ⊥ (minimax t (d - 1) false).1 := le_max_right _ _
            _ ≤ runMax (childPairs rest (d - 1) false) _ := le_runMax _ _
          rw [hMb] at hle
          exact le_bot_iff.1 hle
        rw [hcp, List.find?_cons_of_pos, GNode.headMove]
        · rw [hvb]
        · simp [hvb]
  · rw [minimax, if_neg hguard]
    simp only [Bool.false_eq_true, if_false]
    obtain ⟨h1, h2, h3⟩ := mmMin_spec cs (d - 1) ⊤ cs.headMove
    refine ⟨h1, ?_⟩
    by_cases hM : runMin (childPairs cs (d - 1) true) ⊤ < (⊤ : S)
    · exact h2 hM
    · have hMb : runMin (childPairs cs (d - 1) true) ⊤ = ⊤ :=
        top_le_iff.1 (not_lt.1 hM)
      rw [h3 (le_of_eq hMb.symm), hMb]
      cases cs with
      | nil => simp [GNode.isNil] at hne
      | cons m t rest =>
        have hcp : childPairs (GNode.cons m t rest) (d - 1) true
            = (m, (minimax t (d - 1) true).1) :: childPairs rest (d - 1) true := by
          rw [childPairs]
        have hvb : (minimax t (d - 1) true).1 = ⊤ := by
          have hle : runMin (childPairs (GNode.cons m t rest) (d - 1) true) ⊤
              ≤ (minimax t (d - 1) true).1 := by
            rw [hcp]
            calc runMin (childPairs rest (d - 1) true) (min ⊤ (minimax t (d - 1) true).1)
                ≤ min ⊤ (minimax t (d - 1) true).1 := runMin_le _ _
            _ ≤ (minimax t (d - 1) true).1 := min_le_right _ _
          rw [hMb] at hle
          exact top_le_iff.1 hle
        rw [hcp, List.find?_cons_of_pos, GNode.headMove]
        · rw [hvb]
        · simp [hvb]

/-- Witness for C6 at a concrete tree and depth. -/
theorem minimax_selection_witness :
    (minimax exTree 1 true).1
        = runMax (childPairs (exTree.kids) 0 false) ⊥ ∧
    (1 : ℤ) ≤ 1 :=
  ⟨((minimax_selection (3, 3) ((7 : ℤ) : IScore)
      (GNode.cons (2, 3) (GNode.node (4, 4) ((5 : ℤ) : IScore) GNode.nil) GNode.nil) 1
      le_rfl (by rw [GNode.isNil]; simp)).1).1, le_rfl⟩

/-- The maximizing loop's value dominates its seed. -/
theorem mmMax_ge {S : Type} [LinearOrder S] [OrderBot S] [OrderTop S]
    (cs : GNode S false) (d : ℤ) (M : S) (mv : Move) :
    M ≤ (mmMax cs d (M, mv)).1 := by
  rw [(mmMax_spec cs d M mv).1]
  exact le_runMax _ M

/-- The minimizing loop's value is dominated by its seed. -/
theorem mmMin_le' {S : Type} [LinearOrder S] [OrderBot S] [OrderTop S]
    (cs : GNode S false) (d : ℤ) (M : S) (mv : Move) :
    (mmMin cs d (M, mv)).1 ≤ M := by
  rw [(mmMin_spec cs d M mv).1]
  exact runMin_le _ M

/-- One step of the maximizing loop preserves the pruning invariant. -/
theorem abMmMax_cons {S : Type} [LinearOrder S] [OrderBot S] [OrderTop S]
    (m : Move) (t : GNode S true) (rest : GNode S false)
    (iht : KMTriple t) (ihmax : AbMmMaxRel rest) :
    AbMmMaxRel (GNode.cons m t rest) := by
  intro d al be s0 M mva mvm hab ha hs hm
  obtain ⟨hc1, hc2, hc3⟩ := iht d (max al s0) be false ha
  rw [abMax, mmMax]
  set B : S × Move := if (s0, mva).1 < (alphabeta t d (max al s0) be false).1
    then ((alphabeta t d (max al s0) be false).1, m) else (s0, mva) with hB
  set C : S × Move := if (M, mvm).1 < (minimax t d false).1
    then ((minimax t d false).1, m) else (M, mvm) with hC
  have hBcases : B.1 = (alphabeta t d (max al s0) be false).1 ∨ B.1 = s0 := by
    rw [hB]
    by_cases h : (s0, mva).1 < (alphabeta t d (max al s0) be false).1
    · rw [if_pos h]; exact Or.inl rfl
    · rw [if_neg h]; exact Or.inr rfl
  have hs0B : s0 ≤ B.1 := by
    rw [hB]
    by_cases h : (s0, mva).1 < (alphabeta t d (max al s0) be false).1
    · rw [if_pos h]; exact le_of_lt h
    · rw [if_neg h]
  have hCcases : C.1 = (minimax t d false).1 ∨ C.1 = M := by
    rw [hC]
    by_cases h : (M, mvm).1 < (minimax t d false).1
    · rw [if_pos h]; exact Or.inl rfl
    · rw [if_neg h]; exact Or.inr rfl
  have hMC : M ≤ C.1 := by
    rw [hC]
    by_cases h : (M, mvm).1 < (minimax t d false).1
    · rw [if_pos h]; exact le_of_lt h
    · rw [if_neg h]
  rw [show max (max al s0) B.1 = max al B.1 from by rw [max_assoc, max_eq_right hs0B]]
  rcases le_or_lt (minimax t d false).1 (max al s0) with hcaseA | hgt
  · -- case A: the child's true value fails low
    have hrcA : (alphabeta t d (max al s0) be false).1 ≤ max al s0 := hc1 hcaseA
    have hBle : B.1 ≤ max al s0 := by
      rcases hBcases with h | h
      · rw [h]; exact hrcA
      · rw [h]; exact le_max_right al s0
    have hCle : C.1 ≤ max al s0 := by
      rcases hCcases with h | h
      · rw [h]; exact hcaseA
      · rw [h]; exact hm
    have ha' : max al B.1 < be :=
      lt_of_le_of_lt (max_le (le_max_left al s0) hBle) ha
    rw [if_neg (not_le.2 ha')]
    have hs' : B.1 ≤ max al C.1 := by
      calc B.1 ≤ max al s0 := hBle
      _ ≤ max al M := max_le (le_max_left al M) hs
      _ ≤ max al C.1 := max_le (le_max_left al C.1) (le_trans hMC (le_max_right al C.1))
    have hm' : C.1 ≤ max al B.1 := by
      calc C.1 ≤ max al s0 := hCle
      _ ≤ max al B.1 := max_le (le_max_left al B.1) (le_trans hs0B (le_max_right al B.1))
    exact ihmax d al be B.1 C.1 B.2 C.2 hab ha' hs' hm'
  · by_cases hvb : (minimax t d false).1 < be
    · -- case B: the child's true value lies inside the window
      have hrcB : (alphabeta t d (max al s0) be false).1 = (minimax t d false).1 :=
        hc2 hgt hvb
      have hBeq : B = ((minimax t d false).1, m) := by
        rw [hB, if_pos (by rw [hrcB]; exact lt_of_le_of_lt (le_max_right al s0) hgt), hrcB]
      have hCeq : C = ((minimax t d false).1, m) := by
        rw [hC, if_pos (lt_of_le_of_lt hm hgt)]
      rw [hBeq, hCeq]
      rw [if_neg (not_le.2 (max_lt hab hvb))]
      exact ihmax d al be (minimax t d false).1 (minimax t d false).1 m m hab
        (max_lt hab hvb) (le_max_right al _) (le_max_right al _)
    · -- case C: the child's true value fails high, so the loop breaks
      have hbevc : be ≤ (minimax t d false).1 := not_lt.1 hvb
      have hrcC : be ≤ (alphabeta t d (max al s0) be false).1 := hc3 hbevc
      have hBeq : B = ((alphabeta t d (max al s0) be false).1, m) := by
        rw [hB, if_pos (lt_of_le_of_lt (le_max_right al s0) (lt_of_lt_of_le ha hrcC))]
      have hCeq : C = ((minimax t d false).1, m) := by
        rw [hC, if_pos (lt_of_le_of_lt hm (lt_of_lt_of_le ha hbevc))]
      rw [hBeq, hCeq]
      rw [if_pos (le_trans hrcC (le_max_right al _))]
      exact Or.inr ⟨hrcC, le_trans hbevc (mmMax_ge rest d (minimax t d false).1 m)⟩

/-- One step of the minimizing loop preserves the pruning invariant. -/
theorem abMmMin_cons {S : Type} [LinearOrder S] [OrderBot S] [OrderTop S]
    (m : Move) (t : GNode S true) (rest : GNode S false)
    (iht : KMTriple t) (ihmin : AbMmMinRel rest) :
    AbMmMinRel (GNode.cons m t rest) := by
  intro d al be s0 M mva mvm hab hb hs hm
  obtain ⟨hc1, hc2, hc3⟩ := iht d al (min be s0) true hb
  rw [abMin, mmMin]
  set B : S × Move := if (alphabeta t d al (min be s0) true).1 < (s0, mva).1
    then ((alphabeta t d al (min be s0) true).1, m) else (s0, mva) with hB
  set C : S × Move := if (minimax t d true).1 < (M, mvm).1
    then ((minimax t d true).1, m) else (M, mvm) with hC
  have hBcases : B.1 = (alphabeta t d al (min be s0) true).1 ∨ B.1 = s0 := by
    rw [hB]
    by_cases h : (alphabeta t d al (min be s0) true).1 < (s0, mva).1
    · rw [if_pos h]; exact Or.inl rfl
    · rw [if_neg h]; exact Or.inr rfl
  have hBle : B.1 ≤ s0 := by
    rw [hB]
    by_cases h : (alphabeta t d al (min be s0) true).1 < (s0, mva).1
    · rw [if_pos h]; exact le_of_lt h
    · rw [if_neg h]
  have hCcases : C.1 = (minimax t d true).1 ∨ C.1 = M := by
    rw [hC]
    by_cases h : (minimax t d true).1 < (M, mvm).1
    · rw [if_pos h]; exact Or.inl rfl
    · rw [if_neg h]; exact Or.inr rfl
  have hCM : C.1 ≤ M := by
    rw [hC]
    by_cases h : (minimax t d true).1 < (M, mvm).1
    · rw [if_pos h]; exact le_of_lt h
    · rw [if_neg h]
  rw [show min (min be s0) B.1 = min be B.1 from by rw [min_assoc, min_eq_right hBle]]
  rcases le_or_lt (min be s0) (minimax t d true).1 with hcaseC | hlt
  · -- the child's true value fails high: the loop continues with the tightened window
    have hrcC : min be s0 ≤ (alphabeta t d al (min be s0) true).1 := hc3 hcaseC
    have hBge : min be s0 ≤ B.1 := by
      rcases hBcases with h | h
      · rw [h]; exact hrcC
      · rw [h]; exact min_le_right be s0
    have hCge : min be s0 ≤ C.1 := by
      rcases hCcases with h | h
      · rw [h]; exact hcaseC
      · rw [h]; exact hm
    have hb' : al < min be B.1 :=
      lt_of_lt_of_le hb (le_min (min_le_left be s0) hBge)
    rw [if_neg (not_le.2 hb')]
    have hs' : min be C.1 ≤ B.1 := by
      calc min be C.1 ≤ min be M := le_min (min_le_left be C.1)
            (le_trans (min_le_right be C.1) hCM)
      _ ≤ min be s0 := le_min (min_le_left be M) hs
      _ ≤ B.1 := hBge
    have hm' : min be B.1 ≤ C.1 := by
      calc min be B.1 ≤ min be s0 := le_min (min_le_left be B.1)
            (le_trans (min_le_right be B.1) hBle)
      _ ≤ C.1 := hCge
    exact ihmin d al be B.1 C.1 B.2 C.2 hab hb' hs' hm'
  · by_cases hva : al < (minimax t d true).1
    · -- the child's true value lies inside the window
      have hrcB : (alphabeta t d al (min be s0) true).1 = (minimax t d true).1 :=
        hc2 hva hlt
      have hBeq : B = ((minimax t d true).1, m) := by
        rw [hB, if_pos (by rw [hrcB]; exact lt_of_lt_of_le hlt (min_le_right be s0)), hrcB]
      have hCeq : C = ((minimax t d true).1, m) := by
        rw [hC, if_pos (lt_of_lt_of_le hlt hm)]
      rw [hBeq, hCeq]
      rw [if_neg (not_le.2 (lt_min hab hva))]
      exact ihmin d al be (minimax t d true).1 (minimax t d true).1 m m hab
        (lt_min hab hva) (min_le_right be _) (min_le_right be _)
    · -- the child's true value fails low, so the loop breaks
      have hvca : (minimax t d true).1 ≤ al := not_lt.1 hva
      have hrcA : (alphabeta t d al (min be s0) true).1 ≤ al := hc1 hvca
      have hBeq : B = ((alphabeta t d al (min be s0) true).1, m) := by
        rw [hB, if_pos (lt_of_le_of_lt hrcA (lt_of_lt_of_le hb (min_le_right be s0)))]
      have hCeq : C = ((minimax t d true).1, m) := by
        rw [hC, if_pos (lt_of_le_of_lt hvca (lt_of_lt_of_le hb hm))]
      rw [hBeq, hCeq]
      rw [if_pos (le_trans (min_le_right be _) hrcA)]
      exact Or.inr ⟨hrcA, le_trans (mmMin_le' rest d (minimax t d true).1 m) hvca⟩

/-- The Knuth-Moore relation holds at every node, and the loop invariants
hold for every child list. -/
theorem km_all {S : Type} [LinearOrder S] [OrderBot S] [OrderTop S] :
    (∀ t : GNode S true, KMTriple t) ∧
    (∀ cs : GNode S false, AbMmMaxRel cs ∧ AbMmMinRel cs) := by
  refine gnode_induction ?_ ?_ ?_
  · -- node case
    intro loc sc kids ihk
    intro d al be maxi hab
    by_cases hleaf : d < 1 ∨ kids.isNil = true
    · rw [minimax, if_pos hleaf, alphabeta, if_pos hleaf]
      exact ⟨fun h => h, fun _ _ => rfl, fun h => h⟩
    · cases maxi with
      | true =>
        rw [minimax, if_neg hleaf, alphabeta, if_neg hleaf]
        simp only [if_pos rfl, if_true]
        have hal : max al (⊥ : S) = al := max_eq_left bot_le
        have hrel := ihk.1 (d - 1) al be ⊥ ⊥ kids.headMove kids.headMove hab
          (by rw [hal]; exact hab) (by rw [hal]; exact bot_le) (by rw [hal]; exact bot_le)
        rw [hal] at hrel
        rcases hrel with ⟨h1, h2⟩ | ⟨h1, h2⟩
        · refine ⟨?_, ?_, ?_⟩
          · intro hva
            calc (abMax kids (d - 1) al be (⊥, kids.headMove)).1
                ≤ max al (mmMax kids (d - 1) (⊥, kids.headMove)).1 := h1
            _ = al := max_eq_left hva
          · intro hav hvb
            have hrv : (abMax kids (d - 1) al be (⊥, kids.headMove)).1
                ≤ (mmMax kids (d - 1) (⊥, kids.headMove)).1 := by
              have h1' := h1
              rw [max_eq_right (le_of_lt hav)] at h1'
              exact h1'
            have har : al < (abMax kids (d - 1) al be (⊥, kids.headMove)).1 := by
              by_contra hc
              have h2' := h2
              rw [max_eq_left (not_lt.1 hc)] at h2'
              exact absurd hav (not_lt.2 h2')
            have hvr : (mmMax kids (d - 1) (⊥, kids.headMove)).1
                ≤ (abMax kids (d - 1) al be (⊥, kids.headMove)).1 := by
              have h2' := h2
              rw [max_eq_right (le_of_lt har)] at h2'
              exact h2'
            exact le_antisymm hrv hvr
          · intro hbv
            rcases le_or_lt (abMax kids (d - 1) al be (⊥, kids.headMove)).1 al with hc | hc
            · rw [max_eq_left hc] at h2
              exact absurd (le_trans hbv h2) (not_le.2 hab)
            · rw [max_eq_right (le_of_lt hc)] at h2
              exact le_trans hbv h2
        · exact ⟨fun hva => absurd (lt_of_lt_of_le hab h2) (not_lt.2 hva),
            fun _ hvb => absurd h2 (not_le.2 hvb), fun _ => h1⟩
      | false =>
        rw [minimax, if_neg hleaf, alphabeta, if_neg hleaf]
        simp only [Bool.false_eq_true, if_false]
        have hbe : min be (⊤ : S) = be := min_eq_left le_top
        have hrel := ihk.2 (d - 1) al be ⊤ ⊤ kids.headMove kids.headMove hab
          (by rw [hbe]; exact hab) (by rw [hbe]; exact le_top) (by rw [hbe]; exact le_top)
        rw [hbe] at hrel
        rcases hrel with ⟨h1, h2⟩ | ⟨h1, h2⟩
        · refine ⟨?_, ?_, ?_⟩
          · intro hva
            rcases le_or_lt be (abMin kids (d - 1) al be (⊤, kids.headMove)).1 with hc | hc
            · rw [min_eq_left hc] at h2
              exact absurd (le_trans h2 hva) (not_le.2 hab)
            · rw [min_eq_right (le_of_lt hc)] at h2
              exact le_trans h2 hva
          · intro hav hvb
            have h1' := h1
            rw [min_eq_right (le_of_lt hvb)] at h1'
            have hrb : (abMin kids (d - 1) al be (⊤, kids.headMove)).1 < be := by
              by_contra hc
              have h2' := h2
              rw [min_eq_left (not_lt.1 hc)] at h2'
              exact absurd h2' (not_le.2 hvb)
            have h2' := h2
            rw [min_eq_right (le_of_lt hrb)] at h2'
            exact le_antisymm h2' h1'
          · intro hbv
            rw [min_eq_left hbv] at h1
            exact h1
        · exact ⟨fun _ => h1, fun hav _ => absurd h2 (not_le.2 hav),
            fun hbv => absurd (le_trans hbv h2) (not_le.2 hab)⟩
  · -- nil case
    constructor
    · intro d al be s0 M mva mvm hab ha hs hm
      rw [abMax, mmMax]
      exact Or.inl ⟨hs, hm⟩
    · intro d al be s0 M mva mvm hab hb hs hm
      rw [abMin, mmMin]
      exact Or.inl ⟨hs, hm⟩
  · -- cons case
    intro m t rest iht ihrest
    exact ⟨abMmMax_cons m t rest iht ihrest.1, abMmMin_cons m t rest iht ihrest.2⟩

/-- Once the running maximum reaches top, the maximizing loop no longer
changes its state. -/
theorem mmMax_top_stable {S : Type} [LinearOrder S] [OrderBot S] [OrderTop S] :
    ∀ cs : GNode S false, ∀ (d : ℤ) (mv : Move), mmMax cs d (⊤, mv) = (⊤, mv) := by
  refine (gnode_induction (P := fun _ => True) ?_ ?_ ?_).2
  · intro loc sc kids ih; trivial
  · intro d mv; rw [mmMax]
  · intro m t rest iht ihr
    intro d mv
    rw [mmMax, if_neg (not_lt.2 le_top)]
    exact ihr d mv

/-- With the full window `(s0, top)` and alpha equal to the running
maximum, the pruned and unpruned maximizing loops agree exactly, score
and move alike. -/
theorem abMax_eq_mmMax_full_window {S : Type} [LinearOrder S] [OrderBot S] [OrderTop S] :
    ∀ cs : GNode S false, ∀ (d : ℤ) (s0 : S) (mv : Move), s0 < ⊤ →
      abMax cs d s0 ⊤ (s0, mv) = mmMax cs d (s0, mv) := by
  refine (gnode_induction (P := fun _ => True) ?_ ?_ ?_).2
  · intro loc sc kids ih; trivial
  · intro d s0 mv hstop; rw [abMax, mmMax]
  · intro m t rest iht ihr
    intro d s0 mv hstop
    obtain ⟨hc1, hc2, hc3⟩ := km_all.1 t d s0 ⊤ false hstop
    rw [abMax, mmMax]
    rcases le_or_lt (minimax t d false).1 s0 with hA | hgt
    · have hrc : (alphabeta t d s0 ⊤ false).1 ≤ s0 := hc1 hA
      rw [if_neg (not_lt.2 hrc), if_neg (not_lt.2 hA)]
      rw [show max s0 ((s0, mv) : S × Move).1 = s0 from max_self s0]
      rw [if_neg (not_le.2 hstop)]
      exact ihr d s0 mv hstop
    · rcases lt_or_le (minimax t d false).1 ⊤ with hvt | hvt
      · have hrc : (alphabeta t d s0 ⊤ false).1 = (minimax t d false).1 := hc2 hgt hvt
        rw [if_pos (show ((s0, mv) : S × Move).1 < (alphabeta t d s0 ⊤ false).1 from by
          rw [hrc]; exact hgt)]
        rw [if_pos hgt, hrc]
        rw [show max s0 (((minimax t d false).1, m) : S × Move).1 = (minimax t d false).1
          from max_eq_right (le_of_lt hgt)]
        rw [if_neg (not_le.2 hvt)]
        exact ihr d (minimax t d false).1 m hvt
      · have hvtop : (minimax t d false).1 = ⊤ := top_le_iff.1 hvt
        have hrc : (alphabeta t d s0 ⊤ false).1 = ⊤ := top_le_iff.1 (hc3 hvt)
        rw [if_pos (show ((s0, mv) : S × Move).1 < (alphabeta t d s0 ⊤ false).1 from by
          rw [hrc]; exact hstop)]
        rw [if_pos (show ((s0, mv) : S × Move).1 < (minimax t d false).1 from by
          rw [hvtop]; exact hstop)]
        rw [hrc, hvtop]
        rw [if_pos (le_max_right s0 ((⊤, m) : S × Move).1)]
        exact (mmMax_top_stable rest d m).symm

/-- Claim C1: for every game state, every depth and every heuristic,
`alphabeta` called at the root with alpha negative infinity and beta
positive infinity returns the same `(score, move)` pair as exhaustive
`minimax` at the same depth — the `beta <= alpha` break never changes the
root-level result. -/
theorem alphabeta_eq_minimax_root {S : Type} [LinearOrder S] [OrderBot S] [OrderTop S]
    [Nontrivial S] (t : GNode S true) (d : ℤ) :
    alphabeta t d ⊥ ⊤ true = minimax t d true := by
  obtain ⟨loc, sc, kids⟩ := t
  rw [minimax, alphabeta]
  by_cases hleaf : d < 1 ∨ kids.isNil = true
  · rw [if_pos hleaf, if_pos hleaf]
  · rw [if_neg hleaf, if_neg hleaf]
    simp only [if_pos rfl, if_true]
    have hbt : (⊥ : S) < ⊤ := by
      rcases exists_pair_ne S with ⟨x, y, hxy⟩
      rcases eq_or_lt_of_le (bot_le : (⊥ : S) ≤ ⊤) with heq | hlt
      · exfalso
        have hall : ∀ z : S, z = ⊥ := fun z =>
          le_antisymm (by rw [heq]; exact le_top) bot_le
        exact hxy ((hall x).trans (hall y).symm)
      · exact hlt
    exact abMax_eq_mmMax_full_window kids (d - 1) ⊥ kids.headMove hbt

/-- Witness for C1 at a concrete tree and depth over `IScore`. -/
theorem alphabeta_eq_minimax_root_witness :
    alphabeta exTree 2 ⊥ ⊤ true = minimax exTree 2 true :=
  alphabeta_eq_minimax_root exTree 2
